import Mathlib

/-!
Shallow embedding of `src/statistics.cpp`: a streaming-statistics program with
six accumulators (Min, Max, Mean, Std, Pct90, Pct95) fed one `double` at a
time, and a driver that reads whitespace-separated tokens from stdin.

Modelling conventions:
* A C++ `double` is modelled by `Stats.Dbl`: either a finite value (an exact
  rational, idealising away rounding) or one of the IEEE-754 special values
  `posInf`, `negInf`, `nan`.  The IEEE comparison `<` (false whenever a NaN
  is involved) is `Stats.dblLt`.
* `std::numeric_limits<double>::max()` is the largest finite double
  `DBL_MAX = (2^53 - 1) * 2^971`, and `std::numeric_limits<double>::lowest()`
  is `-DBL_MAX`; both are finite, not infinities.
* The accumulators Mean, Std, Pct90, Pct95 only ever receive values parsed
  from decimal/scientific text, i.e. finite doubles; their internal arithmetic
  is modelled exactly over `ℚ` (and `ℝ` for the final `std::sqrt`).
* `floor(size * p / 100.0)` for `p = 90, 95`: `size * p` is an exact integer
  in a double and the quotient is never within an ulp of an integer it does
  not reach, so the computed floor equals natural-number division
  `size * p / 100`, which is how it is modelled.
* `std::vector<double>` is a `List`; `push_back` appends, `insert(pos, x)`
  inserts before `pos`; `values[i]` is modelled with `List.getD` (the in-bounds
  facts are proved separately).
-/

namespace Stats

/-- The largest finite IEEE-754 double, `std::numeric_limits<double>::max()`. -/
def DBL_MAX : ℚ := (2 ^ 53 - 1) * 2 ^ 971

/-- A C++ `double`: a finite (exact) value or one of the special values. -/
inductive Dbl where
  | fin (q : ℚ)
  | posInf
  | negInf
  | nan
deriving DecidableEq

/-- IEEE-754 `<` on doubles: any comparison involving a NaN is false. -/
def dblLt : Dbl → Dbl → Bool
  | .nan, _ => false
  | _, .nan => false
  | .negInf, .negInf => false
  | .negInf, .fin _ => true
  | .negInf, .posInf => true
  | .fin _, .negInf => false
  | .posInf, _ => false
  | .fin a, .fin b => decide (a < b)
  | .fin _, .posInf => true

/-- IEEE-754 `>` on doubles: `a > b` is `b < a`. -/
def dblGt (a b : Dbl) : Bool := dblLt b a

/-- A double is representable iff its finite part fits below `DBL_MAX` in
magnitude; the special values are all representable. -/
def Dbl.valid : Dbl → Prop
  | .fin q => -DBL_MAX ≤ q ∧ q ≤ DBL_MAX
  | _ => True

instance : DecidablePred Dbl.valid := by
  intro x
  cases x <;> simp [Dbl.valid] <;> infer_instance

/-- The finite part of a double (`0` for the special values); used where the
C++ code reads a `double` that is known to be finite. -/
def Dbl.getQ : Dbl → ℚ
  | .fin q => q
  | _ => 0

/-- State of the `Min` statistic: the single member `m_min`. -/
structure Min where
  m_min : Dbl
deriving DecidableEq

/-- `Min::Min()`: `m_min{std::numeric_limits<double>::max()}`. -/
def Min.start : Min := ⟨.fin DBL_MAX⟩

/-- `Min::update`: `if (next < m_min) m_min = next;`. -/
def Min.update (s : Min) (next : Dbl) : Min :=
  if dblLt next s.m_min then ⟨next⟩ else s

/-- `Min::eval`: returns `m_min` unconditionally. -/
def Min.eval (s : Min) : Dbl := s.m_min

/-- Feeding a whole list of values to `Min`, in order. -/
def Min.run (l : List Dbl) : Min := l.foldl Min.update Min.start

/-- State of the `Max` statistic: the single member `m_max`. -/
structure Max where
  m_max : Dbl
deriving DecidableEq

/-- `Max::Max()`: `m_max{std::numeric_limits<double>::lowest()}`. -/
def Max.start : Max := ⟨.fin (-DBL_MAX)⟩

/-- `Max::update`: `if (next > m_max) m_max = next;`. -/
def Max.update (s : Max) (next : Dbl) : Max :=
  if dblGt next s.m_max then ⟨next⟩ else s

/-- `Max::eval`: returns `m_max` unconditionally. -/
def Max.eval (s : Max) : Dbl := s.m_max

/-- Feeding a whole list of values to `Max`, in order. -/
def Max.run (l : List Dbl) : Max := l.foldl Max.update Max.start

/-- State of the `Mean` statistic: members `m_count : int` and
`m_sum : double` (finite throughout, modelled as `ℚ`). -/
structure Mean where
  m_count : ℤ
  m_sum : ℚ
deriving DecidableEq

/-- `Mean::Mean()`: `m_count{0}, m_sum{0}`. -/
def Mean.start : Mean := ⟨0, 0⟩

/-- `Mean::update`: `m_sum += next; ++m_count;`. -/
def Mean.update (s : Mean) (next : ℚ) : Mean :=
  ⟨s.m_count + 1, s.m_sum + next⟩

/-- `Mean::eval`: `NAN` when `m_count == 0`, else `m_sum / m_count`. -/
def Mean.eval (s : Mean) : Dbl :=
  if s.m_count = 0 then .nan else .fin (s.m_sum / (s.m_count : ℚ))

/-- Feeding a whole list of values to `Mean`, in order. -/
def Mean.run (l : List ℚ) : Mean := l.foldl Mean.update Mean.start

/-- Result of an eval that may be irrational (because of `std::sqrt`) or a
special double value; used for `Std::eval` and for the printed results. -/
inductive RVal where
  | fin (r : ℝ)
  | posInf
  | negInf
  | nan

/-- Widening a `Dbl` result to an `RVal`. -/
def Dbl.toR : Dbl → RVal
  | .fin q => .fin (q : ℝ)
  | .posInf => .posInf
  | .negInf => .negInf
  | .nan => .nan

/-- `Std::update`: `values.push_back(next);` — the state is the member
`std::vector<double> values`. -/
def Std.update (values : List ℚ) (next : ℚ) : List ℚ := values ++ [next]

/-- Feeding a whole list of values to `Std`, in order. -/
def Std.run (l : List ℚ) : List ℚ := l.foldl Std.update []

/-- `Std::eval`: `NAN` when `values` is empty; otherwise build a `Mean` over
all values, take `mean = mean_.eval()`, build a second `Mean` over
`pow(val - mean, 2)`, and return `sqrt(disp.eval())`. -/
noncomputable def Std.eval (values : List ℚ) : RVal :=
  if values = [] then .nan
  else
    let mean : ℚ := (Mean.eval (values.foldl Mean.update Mean.start)).getQ
    let disp : Mean :=
      values.foldl (fun s val => Mean.update s ((val - mean) ^ 2)) Mean.start
    .fin (Real.sqrt ((Mean.eval disp).getQ : ℝ))

/-- `Pct90::update` (and the textually identical `Pct95::update`): walk `pos`
from `values.begin()` while `*pos < next`, then `values.insert(pos, next)` —
i.e. insert `next` in front of the first element that is not `< next`. -/
def pctInsert (next : ℚ) : List ℚ → List ℚ
  | [] => [next]
  | x :: xs => if x < next then x :: pctInsert next xs else next :: x :: xs

/-- `Pct90::update`: sorted insertion into the member `values`. -/
def Pct90.update (values : List ℚ) (next : ℚ) : List ℚ := pctInsert next values

/-- `Pct95::update`: same body as `Pct90::update`. -/
def Pct95.update (values : List ℚ) (next : ℚ) : List ℚ := pctInsert next values

/-- `int pos90 = floor(size * 90 / 100.0);` (exact for in-range sizes). -/
def pos90 (size : ℕ) : ℕ := size * 90 / 100

/-- `int pos95 = floor(size * 95 / 100.0);` (exact for in-range sizes). -/
def pos95 (size : ℕ) : ℕ := size * 95 / 100

/-- `Pct90::eval`: `NAN` when empty, else `values[pos90]`. -/
def Pct90.eval (values : List ℚ) : Dbl :=
  if values = [] then .nan else .fin (values.getD (pos90 values.length) 0)

/-- `Pct95::eval`: `NAN` when empty, else `values[pos95]`. -/
def Pct95.eval (values : List ℚ) : Dbl :=
  if values = [] then .nan else .fin (values.getD (pos95 values.length) 0)

/-- Feeding a whole list of values to `Pct90`, in order. -/
def Pct90.run (l : List ℚ) : List ℚ := l.foldl Pct90.update []

/-- Feeding a whole list of values to `Pct95`, in order. -/
def Pct95.run (l : List ℚ) : List ℚ := l.foldl Pct95.update []

/-- One whitespace-delimited token of standard input, as `std::cin >> val`
sees it.  `val v` parses as a double.  `bad` is a malformed token followed by
further characters in the stream: extraction sets `failbit` but not `eofbit`.
`badEof` is a malformed trailing token whose characters extend to
end-of-input: extraction consumes the stream to its end, so it sets `eofbit`
together with `failbit` (e.g. the `3e` of the stdin text `1 2 3e`). -/
inductive Tok where
  | val (v : ℚ)
  | bad
  | badEof
deriving DecidableEq

/-- The `while (std::cin >> val)` loop over the token stream.  Returns the
values successfully read (the prefix before the first failing token) and
whether the loop stopped with `failbit` set but `eofbit` clear — the exact
condition `!cin.eof() && !cin.good()` that `main` tests afterwards.  Both a
clean end-of-input and a malformed trailing token that reaches end-of-input
(`badEof`) leave `eofbit` set, so for them the flag is `false`. -/
def readLoop : List Tok → List ℚ × Bool
  | [] => ([], false)
  | .bad :: _ => ([], true)
  | .badEof :: _ => ([], false)
  | .val v :: ts =>
    let r := readLoop ts
    (v :: r.1, r.2)

/-- The six statistic lines `main` prints on success, in construction order:
each is the accumulator's `name()` paired with its `eval()` after every read
value has been fed to it. -/
noncomputable def mainStats (vals : List ℚ) : List (String × RVal) :=
  [("min", (Min.eval (Min.run (vals.map Dbl.fin))).toR),
   ("max", (Max.eval (Max.run (vals.map Dbl.fin))).toR),
   ("mean", (Mean.eval (Mean.run vals)).toR),
   ("std", Std.eval (Std.run vals)),
   ("pct90", (Pct90.eval (Pct90.run vals)).toR),
   ("pct95", (Pct95.eval (Pct95.run vals)).toR)]

/-- Observable outcome of one run of `main`: the statistic lines written to
stdout, the diagnostic lines written to stderr, and the exit code. -/
structure MainResult where
  outLines : List (String × RVal)
  errLines : List String
  exitCode : ℕ

/-- `main`: read values until the stream fails; if after the loop
`!cin.eof() && !cin.good()` holds (failure not at end-of-input), print
`"Invalid input data"` to stderr and return 1; otherwise print every
statistic line and return 0. -/
noncomputable def runMain (tokens : List Tok) : MainResult :=
  let r := readLoop tokens
  if r.2 then ⟨[], ["Invalid input data"], 1⟩
  else ⟨mainStats r.1, [], 0⟩

/-- The arithmetic mean as the spec states it: sum over count. -/
def meanQ (l : List ℚ) : ℚ := l.sum / (l.length : ℚ)

/-- The population mean of squared deviations as the spec states it:
divisor is the count, not count minus one. -/
def dispQ (l : List ℚ) : ℚ :=
  ((l.map (fun v => (v - meanQ l) ^ 2)).sum) / (l.length : ℚ)

/-- `Min::update` restricted to finite doubles, as a `ℚ` fold step. -/
def minStep (cur x : ℚ) : ℚ := if x < cur then x else cur

/-- `Max::update` restricted to finite doubles, as a `ℚ` fold step. -/
def maxStep (cur x : ℚ) : ℚ := if cur < x then x else cur

lemma Mean.foldl_spec (l : List ℚ) : ∀ s : Mean,
    (l.foldl Mean.update s).m_count = s.m_count + l.length ∧
    (l.foldl Mean.update s).m_sum = s.m_sum + l.sum := by
  induction l with
  | nil => intro s; simp
  | cons x xs ih =>
    intro s
    obtain ⟨h1, h2⟩ := ih (Mean.update s x)
    refine ⟨?_, ?_⟩
    · rw [List.foldl_cons, h1]
      simp only [Mean.update, List.length_cons]
      push_cast
      ring
    · rw [List.foldl_cons, h2]
      simp only [Mean.update, List.sum_cons]
      ring

lemma Mean.run_count (l : List ℚ) : (Mean.run l).m_count = l.length := by
  have h := (Mean.foldl_spec l Mean.start).1
  simpa [Mean.run, Mean.start] using h

lemma Mean.run_sum (l : List ℚ) : (Mean.run l).m_sum = l.sum := by
  have h := (Mean.foldl_spec l Mean.start).2
  simpa [Mean.run, Mean.start] using h

lemma Mean.run_eval (l : List ℚ) (h : l ≠ []) :
    Mean.eval (Mean.run l) = .fin (meanQ l) := by
  have hc : (Mean.run l).m_count = l.length := Mean.run_count l
  have hlen : l.length ≠ 0 := by
    simpa [List.length_eq_zero] using h
  rw [Mean.eval, if_neg (by simp [hc, hlen]), Mean.run_sum, hc, meanQ]
  norm_cast

lemma pctInsert_perm (x : ℚ) (l : List ℚ) : (pctInsert x l).Perm (x :: l) := by
  induction l with
  | nil => simp [pctInsert]
  | cons a as ih =>
    by_cases h : a < x
    · rw [pctInsert, if_pos h]
      exact (ih.cons a).trans (List.Perm.swap x a as)
    · rw [pctInsert, if_neg h]

lemma pctInsert_sorted (x : ℚ) {l : List ℚ} (h : l.Sorted (· ≤ ·)) :
    (pctInsert x l).Sorted (· ≤ ·) := by
  induction l with
  | nil => simp [pctInsert]
  | cons a as ih =>
    rw [List.sorted_cons] at h
    obtain ⟨ha, has⟩ := h
    by_cases hax : a < x
    · rw [pctInsert, if_pos hax, List.sorted_cons]
      refine ⟨?_, ih has⟩
      intro b hb
      have hb' : b ∈ x :: as := (pctInsert_perm x as).mem_iff.mp hb
      rcases List.mem_cons.mp hb' with hbx | hbas
      · exact hbx ▸ le_of_lt hax
      · exact ha b hbas
    · rw [pctInsert, if_neg hax, List.sorted_cons]
      refine ⟨?_, by rw [List.sorted_cons]; exact ⟨ha, has⟩⟩
      intro b hb
      rcases List.mem_cons.mp hb with hba | hbas
      · exact hba ▸ le_of_not_lt hax
      · exact le_trans (le_of_not_lt hax) (ha b hbas)

lemma pct_foldl_sorted_perm (l : List ℚ) : ∀ acc : List ℚ,
    acc.Sorted (· ≤ ·) →
    (l.foldl Pct90.update acc).Sorted (· ≤ ·) ∧
    (l.foldl Pct90.update acc).Perm (acc ++ l) := by
  induction l with
  | nil =>
    intro acc hacc
    refine ⟨hacc, ?_⟩
    simp
  | cons x xs ih =>
    intro acc hacc
    rw [List.foldl_cons]
    obtain ⟨hs, hp⟩ := ih (Pct90.update acc x) (pctInsert_sorted x hacc)
    refine ⟨hs, hp.trans ?_⟩
    have h1 : (Pct90.update acc x ++ xs).Perm ((x :: acc) ++ xs) :=
      (pctInsert_perm x acc).append_right xs
    refine h1.trans ?_
    exact List.perm_middle.symm

lemma Pct90.run_sorted (l : List ℚ) : (Pct90.run l).Sorted (· ≤ ·) :=
  (pct_foldl_sorted_perm l [] (by simp)).1

lemma Pct90.run_perm (l : List ℚ) : (Pct90.run l).Perm l := by
  simpa using (pct_foldl_sorted_perm l [] (by simp)).2

lemma Pct90.run_eq_insertionSort (l : List ℚ) :
    Pct90.run l = List.insertionSort (· ≤ ·) l :=
  List.eq_of_perm_of_sorted
    ((Pct90.run_perm l).trans (List.perm_insertionSort _ l).symm)
    (Pct90.run_sorted l) (List.sorted_insertionSort _ l)

lemma pct95Run_eq (l : List ℚ) : Pct95.run l = Pct90.run l := rfl

lemma min_foldl_fin (l : List ℚ) : ∀ c : ℚ,
    (l.map Dbl.fin).foldl Min.update ⟨.fin c⟩ = ⟨.fin (l.foldl minStep c)⟩ := by
  induction l with
  | nil => intro c; rfl
  | cons x xs ih =>
    intro c
    have hstep : Min.update ⟨.fin c⟩ (.fin x) = (⟨.fin (minStep c x)⟩ : Min) := by
      by_cases h : x < c <;> simp [Min.update, dblLt, minStep, h]
    rw [List.map_cons, List.foldl_cons, List.foldl_cons, hstep]
    exact ih (minStep c x)

lemma minStep_foldl_spec (l : List ℚ) : ∀ c : ℚ,
    l.foldl minStep c ≤ c ∧ (∀ x ∈ l, l.foldl minStep c ≤ x) ∧
    (l.foldl minStep c = c ∨ l.foldl minStep c ∈ l) := by
  induction l with
  | nil => intro c; simp
  | cons x xs ih =>
    intro c
    rw [List.foldl_cons]
    obtain ⟨h1, h2, h3⟩ := ih (minStep c x)
    have hcx : minStep c x ≤ c := by
      rw [minStep]; split <;> simp_all [le_of_lt]
    have hxx : minStep c x ≤ x := by
      rw [minStep]; split <;> simp_all [le_of_not_lt]
    refine ⟨le_trans h1 hcx, ?_, ?_⟩
    · intro y hy
      rcases List.mem_cons.mp hy with rfl | hyxs
      · exact le_trans h1 hxx
      · exact h2 y hyxs
    · rcases h3 with h3 | h3
      · by_cases hlt : x < c
        · have hm : minStep c x = x := by rw [minStep, if_pos hlt]
          refine Or.inr ?_
          rw [h3, hm]
          exact List.mem_cons_self x xs
        · have hm : minStep c x = c := by rw [minStep, if_neg hlt]
          exact Or.inl (by rw [h3, hm])
      · exact Or.inr (List.mem_cons_of_mem x h3)

lemma max_foldl_fin (l : List ℚ) : ∀ c : ℚ,
    (l.map Dbl.fin).foldl Max.update ⟨.fin c⟩ = ⟨.fin (l.foldl maxStep c)⟩ := by
  induction l with
  | nil => intro c; rfl
  | cons x xs ih =>
    intro c
    have hstep : Max.update ⟨.fin c⟩ (.fin x) = (⟨.fin (maxStep c x)⟩ : Max) := by
      by_cases h : c < x <;> simp [Max.update, dblGt, dblLt, maxStep, h]
    rw [List.map_cons, List.foldl_cons, List.foldl_cons, hstep]
    exact ih (maxStep c x)

lemma maxStep_foldl_spec (l : List ℚ) : ∀ c : ℚ,
    c ≤ l.foldl maxStep c ∧ (∀ x ∈ l, x ≤ l.foldl maxStep c) ∧
    (l.foldl maxStep c = c ∨ l.foldl maxStep c ∈ l) := by
  induction l with
  | nil => intro c; simp
  | cons x xs ih =>
    intro c
    rw [List.foldl_cons]
    obtain ⟨h1, h2, h3⟩ := ih (maxStep c x)
    have hcx : c ≤ maxStep c x := by
      rw [maxStep]; split <;> simp_all [le_of_lt]
    have hxx : x ≤ maxStep c x := by
      rw [maxStep]; split <;> simp_all [le_of_not_lt]
    refine ⟨le_trans hcx h1, ?_, ?_⟩
    · intro y hy
      rcases List.mem_cons.mp hy with rfl | hyxs
      · exact le_trans hxx h1
      · exact h2 y hyxs
    · rcases h3 with h3 | h3
      · by_cases hlt : c < x
        · have hm : maxStep c x = x := by rw [maxStep, if_pos hlt]
          refine Or.inr ?_
          rw [h3, hm]
          exact List.mem_cons_self x xs
        · have hm : maxStep c x = c := by rw [maxStep, if_neg hlt]
          exact Or.inl (by rw [h3, hm])
      · exact Or.inr (List.mem_cons_of_mem x h3)

lemma Std.foldl_update (l : List ℚ) : ∀ acc : List ℚ,
    l.foldl Std.update acc = acc ++ l := by
  induction l with
  | nil => intro acc; simp
  | cons x xs ih =>
    intro acc
    rw [List.foldl_cons, ih (Std.update acc x), Std.update]
    simp

lemma stdRun_eq (l : List ℚ) : Std.run l = l := by
  simpa using Std.foldl_update l []

lemma ratCast_list_sum (l : List ℚ) :
    ((l.sum : ℚ) : ℝ) = (l.map (fun q : ℚ => (q : ℝ))).sum := by
  induction l with
  | nil => simp
  | cons x xs ih => simp [ih]

lemma Std.eval_disp (l : List ℚ) (h : l ≠ []) :
    Std.eval l = .fin (Real.sqrt ((dispQ l : ℚ) : ℝ)) := by
  have hmean : (Mean.eval (l.foldl Mean.update Mean.start)).getQ = meanQ l := by
    have h1 : l.foldl Mean.update Mean.start = Mean.run l := rfl
    rw [h1, Mean.run_eval l h]
    rfl
  have hdisp :
      l.foldl (fun s val => Mean.update s ((val - meanQ l) ^ 2)) Mean.start =
        Mean.run (l.map (fun val => (val - meanQ l) ^ 2)) := by
    rw [Mean.run, List.foldl_map]
  simp only [Std.eval, if_neg h, hmean, hdisp]
  have hne : l.map (fun val => (val - meanQ l) ^ 2) ≠ [] := by
    simpa using h
  rw [Mean.run_eval _ hne]
  have hq : (Dbl.fin (meanQ (l.map (fun val => (val - meanQ l) ^ 2)))).getQ =
      meanQ (l.map (fun val => (val - meanQ l) ^ 2)) := rfl
  rw [hq]
  have hmd : meanQ (l.map (fun val => (val - meanQ l) ^ 2)) = dispQ l := by
    rw [meanQ, dispQ, List.length_map]
  rw [hmd]

lemma dispQ_cast (l : List ℚ) :
    ((dispQ l : ℚ) : ℝ) =
      (l.map (fun v : ℚ => ((v : ℝ) - (l.sum : ℝ) / (l.length : ℝ)) ^ 2)).sum /
        (l.length : ℝ) := by
  rw [dispQ, Rat.cast_div, ratCast_list_sum, List.map_map]
  have hf : ((fun q : ℚ => (q : ℝ)) ∘ fun v : ℚ => (v - meanQ l) ^ 2) =
      fun v : ℚ => ((v : ℝ) - (l.sum : ℝ) / (l.length : ℝ)) ^ 2 := by
    funext v
    simp only [Function.comp, meanQ]
    push_cast
    ring
  rw [hf]
  norm_cast

lemma meanQ_perm {l l' : List ℚ} (hp : l.Perm l') : meanQ l = meanQ l' := by
  rw [meanQ, meanQ, hp.sum_eq, hp.length_eq]

lemma dispQ_perm {l l' : List ℚ} (hp : l.Perm l') : dispQ l = dispQ l' := by
  rw [dispQ, dispQ, meanQ_perm hp, hp.length_eq,
    (hp.map (fun v => (v - meanQ l') ^ 2)).sum_eq]

lemma stdEval_perm {l l' : List ℚ} (hp : l.Perm l') :
    Std.eval l = Std.eval l' := by
  by_cases h : l = []
  · subst h
    have h' : l' = [] := hp.symm.eq_nil
    subst h'
    rfl
  · have h' : l' ≠ [] := by
      intro e
      subst e
      exact h hp.eq_nil
    rw [Std.eval_disp l h, Std.eval_disp l' h', dispQ_perm hp]

lemma dispQ_replicate (c : ℚ) (n : ℕ) (h : 1 ≤ n) :
    dispQ (List.replicate n c) = 0 := by
  have hn : ((n : ℚ)) ≠ 0 := Nat.cast_ne_zero.mpr (by omega)
  have hmean : meanQ (List.replicate n c) = c := by
    rw [meanQ, List.sum_replicate, List.length_replicate, nsmul_eq_mul]
    exact mul_div_cancel_left₀ c hn
  rw [dispQ, hmean, List.map_replicate]
  simp

lemma meanEval_perm {l l' : List ℚ} (hp : l.Perm l') :
    Mean.eval (Mean.run l) = Mean.eval (Mean.run l') := by
  by_cases h : l = []
  · subst h
    have h' : l' = [] := hp.symm.eq_nil
    subst h'
    rfl
  · have h' : l' ≠ [] := by
      intro e
      subst e
      exact h hp.eq_nil
    rw [Mean.run_eval l h, Mean.run_eval l' h', meanQ_perm hp]

lemma Pct90.run_perm_eq {l l' : List ℚ} (hp : l.Perm l') :
    Pct90.run l = Pct90.run l' := by
  rw [Pct90.run_eq_insertionSort, Pct90.run_eq_insertionSort]
  exact List.eq_of_perm_of_sorted
    ((List.perm_insertionSort _ l).trans (hp.trans (List.perm_insertionSort _ l').symm))
    (List.sorted_insertionSort _ l) (List.sorted_insertionSort _ l')

lemma pos90_lt (n : ℕ) (h : 1 ≤ n) : pos90 n < n := by
  rw [pos90, Nat.div_lt_iff_lt_mul (by norm_num)]
  omega

lemma pos95_lt (n : ℕ) (h : 1 ≤ n) : pos95 n < n := by
  rw [pos95, Nat.div_lt_iff_lt_mul (by norm_num)]
  omega

lemma readLoop_flag_append (pre : List Tok) :
    (∀ t ∈ pre, ∃ v, t = Tok.val v) → ∀ rest : List Tok,
    (readLoop (pre ++ rest)).2 = (readLoop rest).2 := by
  induction pre with
  | nil => intro _ rest; rfl
  | cons t ts ih =>
    intro h rest
    obtain ⟨v, rfl⟩ := h t (List.mem_cons_self t ts)
    show (readLoop (ts ++ rest)).2 = (readLoop rest).2
    exact ih (fun u hu => h u (List.mem_cons_of_mem _ hu)) rest

/-- C2 (counterexample): `Min::eval` after zero ingests does not return the
NaN marker — it returns the initial sentinel `numeric_limits<double>::max()`,
so the claim that every accumulator reports NaN on zero ingests is false. -/
theorem min_empty_eval_not_nan : Min.eval Min.start ≠ Dbl.nan :=
  fun h => Dbl.noConfusion h

/-- C2 (amended): after zero ingests, Mean, Std, Pct90 and Pct95 return the
NaN marker, while Min returns its initial sentinel `DBL_MAX`
(`numeric_limits<double>::max()`) and Max returns `-DBL_MAX`
(`numeric_limits<double>::lowest()`), not NaN. -/
theorem empty_eval_markers :
    Mean.eval Mean.start = Dbl.nan ∧ Std.eval [] = RVal.nan ∧
    Pct90.eval [] = Dbl.nan ∧ Pct95.eval [] = Dbl.nan ∧
    Min.eval Min.start = Dbl.fin DBL_MAX ∧
    Max.eval Max.start = Dbl.fin (-DBL_MAX) :=
  ⟨rfl, rfl, rfl, rfl, rfl, rfl⟩

/-- C3 (counterexample): `Min` is initialized to the finite sentinel
`DBL_MAX`, not to positive infinity, and ingesting `+inf` as the first value
leaves `m_min` at `DBL_MAX`, so the stored extreme does not equal the first
ingested value for `x = +inf`. -/
theorem min_posInf_first_ingest_cex :
    Min.start.m_min = Dbl.fin DBL_MAX ∧
    (Min.update Min.start Dbl.posInf).m_min = Dbl.fin DBL_MAX ∧
    Dbl.fin DBL_MAX ≠ Dbl.posInf :=
  ⟨rfl, rfl, fun h => Dbl.noConfusion h⟩

/-- C3 (amended): `Min` is initialized to the largest finite double
`DBL_MAX = numeric_limits<double>::max()` and `Max` to
`-DBL_MAX = numeric_limits<double>::lowest()` (finite sentinels, not
infinities).  For every representable first ingested value `x` other than
NaN, and other than `+inf` for `Min` resp. `-inf` for `Max`, the stored
extreme after the first `update` equals `x`; in the excluded cases it stays
at the sentinel. -/
theorem first_ingest_extremes (x : Dbl) (hvalid : x.valid) :
    Min.start.m_min = Dbl.fin DBL_MAX ∧ Max.start.m_max = Dbl.fin (-DBL_MAX) ∧
    (x ≠ Dbl.posInf → x ≠ Dbl.nan → (Min.update Min.start x).m_min = x) ∧
    (x ≠ Dbl.negInf → x ≠ Dbl.nan → (Max.update Max.start x).m_max = x) ∧
    (Min.update Min.start Dbl.posInf).m_min = Dbl.fin DBL_MAX ∧
    (Min.update Min.start Dbl.nan).m_min = Dbl.fin DBL_MAX ∧
    (Max.update Max.start Dbl.negInf).m_max = Dbl.fin (-DBL_MAX) ∧
    (Max.update Max.start Dbl.nan).m_max = Dbl.fin (-DBL_MAX) := by
  refine ⟨rfl, rfl, ?_, ?_, rfl, rfl, rfl, rfl⟩
  · intro hp hn
    cases x with
    | fin q =>
      obtain ⟨h1, h2⟩ := hvalid
      by_cases hlt : q < DBL_MAX
      · simp [Min.update, Min.start, dblLt, hlt]
      · have hq : q = DBL_MAX := le_antisymm h2 (le_of_not_lt hlt)
        subst hq
        simp [Min.update, Min.start, dblLt, hlt]
    | posInf => exact absurd rfl hp
    | negInf => simp [Min.update, Min.start, dblLt]
    | nan => exact absurd rfl hn
  · intro hp hn
    cases x with
    | fin q =>
      obtain ⟨h1, h2⟩ := hvalid
      by_cases hlt : -DBL_MAX < q
      · simp [Max.update, Max.start, dblGt, dblLt, hlt]
      · have hq : q = -DBL_MAX := le_antisymm (le_of_not_lt hlt) h1
        subst hq
        simp [Max.update, Max.start, dblGt, dblLt, hlt]
    | posInf => simp [Max.update, Max.start, dblGt, dblLt]
    | negInf => exact absurd rfl hp
    | nan => exact absurd rfl hn

/-- Witness for the amended C3 at the concrete first value `x = 5`. -/
theorem first_ingest_extremes_w :
    (Dbl.fin 5).valid ∧
    (Min.update Min.start (Dbl.fin 5)).m_min = Dbl.fin 5 ∧
    (Max.update Max.start (Dbl.fin 5)).m_max = Dbl.fin 5 := by
  have hv : (Dbl.fin 5).valid := by
    show -DBL_MAX ≤ (5 : ℚ) ∧ (5 : ℚ) ≤ DBL_MAX
    constructor <;> norm_num [DBL_MAX]
  exact ⟨hv,
    (first_ingest_extremes (Dbl.fin 5) hv).2.2.1
      (fun h => Dbl.noConfusion h) (fun h => Dbl.noConfusion h),
    (first_ingest_extremes (Dbl.fin 5) hv).2.2.2.1
      (fun h => Dbl.noConfusion h) (fun h => Dbl.noConfusion h)⟩

/-- C10: for every non-empty `values` vector, the unclamped indices
`floor(size * 90 / 100.0)` and `floor(size * 95 / 100.0)` computed in
`Pct90::eval` and `Pct95::eval` are strictly below `size`, so the
unguarded `values[pos]` indexing stays in bounds for these two fixed
percentiles. -/
theorem pct_index_in_bounds (values : List ℚ) (h : values ≠ []) :
    pos90 values.length < values.length ∧
    pos95 values.length < values.length :=
  ⟨pos90_lt _ (List.length_pos.mpr h), pos95_lt _ (List.length_pos.mpr h)⟩

/-- Witness for C10 at the concrete one-element vector `[7]`. -/
theorem pct_index_in_bounds_w :
    (([7] : List ℚ) ≠ []) ∧
    pos90 ([7] : List ℚ).length < ([7] : List ℚ).length ∧
    pos95 ([7] : List ℚ).length < ([7] : List ℚ).length :=
  ⟨by simp, pct_index_in_bounds [7] (by simp)⟩

/-- C1: for every non-empty ingestion sequence, `Pct90::eval` (resp.
`Pct95::eval`) returns the element of the ascending-sorted multiset of all
ingested values at rank `floor(count * 90 / 100)` (resp. 95), with the rank
clamped to `count - 1` (the clamp is vacuous for these percentiles), and the
result is identical for every arrival order of the same multiset. -/
theorem pct_eval_nearest_rank (l l' : List ℚ) (h : l ≠ []) (hp : l.Perm l') :
    Pct90.eval (Pct90.run l) =
      Dbl.fin ((List.insertionSort (· ≤ ·) l).getD
        (min (pos90 l.length) (l.length - 1)) 0) ∧
    Pct95.eval (Pct95.run l) =
      Dbl.fin ((List.insertionSort (· ≤ ·) l).getD
        (min (pos95 l.length) (l.length - 1)) 0) ∧
    Pct90.eval (Pct90.run l) = Pct90.eval (Pct90.run l') ∧
    Pct95.eval (Pct95.run l) = Pct95.eval (Pct95.run l') := by
  have hl1 : 1 ≤ l.length := List.length_pos.mpr h
  have hrun : Pct90.run l = List.insertionSort (· ≤ ·) l :=
    Pct90.run_eq_insertionSort l
  have hlen : (Pct90.run l).length = l.length := (Pct90.run_perm l).length_eq
  have hne : Pct90.run l ≠ [] := by
    intro e
    rw [e] at hlen
    simp at hlen
    omega
  have h90 : min (pos90 l.length) (l.length - 1) = pos90 l.length :=
    Nat.min_eq_left (by have := pos90_lt l.length hl1; omega)
  have h95 : min (pos95 l.length) (l.length - 1) = pos95 l.length :=
    Nat.min_eq_left (by have := pos95_lt l.length hl1; omega)
  refine ⟨?_, ?_, ?_, ?_⟩
  · rw [Pct90.eval, if_neg hne, hlen, h90, hrun]
  · rw [Pct95.eval, pct95Run_eq, if_neg hne, hlen, h95, hrun]
  · rw [Pct90.run_perm_eq hp]
  · rw [pct95Run_eq, pct95Run_eq, Pct90.run_perm_eq hp]

/-- Witness for C1 at the concrete inputs `[3, 1, 2]` and its reordering
`[1, 2, 3]`. -/
theorem pct_eval_nearest_rank_w :
    ((([3, 1, 2] : List ℚ) ≠ []) ∧ ([3, 1, 2] : List ℚ).Perm [1, 2, 3]) ∧
    Pct90.eval (Pct90.run ([3, 1, 2] : List ℚ)) =
      Dbl.fin ((List.insertionSort (· ≤ ·) ([3, 1, 2] : List ℚ)).getD
        (min (pos90 ([3, 1, 2] : List ℚ).length)
          (([3, 1, 2] : List ℚ).length - 1)) 0) ∧
    Pct90.eval (Pct90.run ([3, 1, 2] : List ℚ)) =
      Pct90.eval (Pct90.run ([1, 2, 3] : List ℚ)) :=
  ⟨⟨by simp, by decide⟩,
   (pct_eval_nearest_rank [3, 1, 2] [1, 2, 3] (by simp) (by decide)).1,
   (pct_eval_nearest_rank [3, 1, 2] [1, 2, 3] (by simp) (by decide)).2.2.1⟩

/-- C6: after any sequence of ingest calls, the internal `values` vector of
`Pct90` and `Pct95` is sorted ascending and is exactly the multiset of all
ingested values (duplicates retained, length = number of ingest calls), and
one `update` on any sorted state preserves sortedness while adding exactly
the new value. -/
theorem pct_state_sorted_invariant :
    (∀ l : List ℚ,
      (Pct90.run l).Sorted (· ≤ ·) ∧ (Pct90.run l).Perm l ∧
      (Pct90.run l).length = l.length ∧
      (Pct95.run l).Sorted (· ≤ ·) ∧ (Pct95.run l).Perm l ∧
      (Pct95.run l).length = l.length) ∧
    (∀ (s : List ℚ) (x : ℚ), s.Sorted (· ≤ ·) →
      (Pct90.update s x).Sorted (· ≤ ·) ∧ (Pct90.update s x).Perm (x :: s) ∧
      (Pct95.update s x).Sorted (· ≤ ·) ∧ (Pct95.update s x).Perm (x :: s)) := by
  constructor
  · intro l
    refine ⟨Pct90.run_sorted l, Pct90.run_perm l, (Pct90.run_perm l).length_eq,
      ?_, ?_, ?_⟩
    · rw [pct95Run_eq]
      exact Pct90.run_sorted l
    · rw [pct95Run_eq]
      exact Pct90.run_perm l
    · rw [pct95Run_eq]
      exact (Pct90.run_perm l).length_eq
  · intro s x hs
    exact ⟨pctInsert_sorted x hs, pctInsert_perm x s,
      pctInsert_sorted x hs, pctInsert_perm x s⟩

/-- Witness for C6 at the concrete sorted state `[1, 3]` and inserted
value `2`. -/
theorem pct_state_sorted_invariant_w :
    (([1, 3] : List ℚ).Sorted (· ≤ ·)) ∧
    (Pct90.update ([1, 3] : List ℚ) 2).Sorted (· ≤ ·) ∧
    (Pct90.update ([1, 3] : List ℚ) 2).Perm [2, 1, 3] :=
  ⟨by decide,
   (pct_state_sorted_invariant.2 [1, 3] 2 (by decide)).1,
   (pct_state_sorted_invariant.2 [1, 3] 2 (by decide)).2.1⟩

/-- C7: for every non-empty ingestion sequence, `Mean::eval` equals the sum
of all ingested values divided by their count, independently of arrival
order. -/
theorem mean_arithmetic_average (l l' : List ℚ) (h : l ≠ []) (hp : l.Perm l') :
    Mean.eval (Mean.run l) = Dbl.fin (l.sum / (l.length : ℚ)) ∧
    Mean.eval (Mean.run l) = Mean.eval (Mean.run l') :=
  ⟨by rw [Mean.run_eval l h, meanQ], meanEval_perm hp⟩

/-- Witness for C7 at the concrete input `[1, 2, 6]` and its reordering
`[6, 2, 1]`. -/
theorem mean_arithmetic_average_w :
    ((([1, 2, 6] : List ℚ) ≠ []) ∧ ([1, 2, 6] : List ℚ).Perm [6, 2, 1]) ∧
    Mean.eval (Mean.run ([1, 2, 6] : List ℚ)) =
      Dbl.fin (([1, 2, 6] : List ℚ).sum / ((([1, 2, 6] : List ℚ).length : ℕ) : ℚ)) ∧
    Mean.eval (Mean.run ([1, 2, 6] : List ℚ)) =
      Mean.eval (Mean.run ([6, 2, 1] : List ℚ)) :=
  ⟨⟨by simp, by decide⟩,
   (mean_arithmetic_average [1, 2, 6] [6, 2, 1] (by simp) (by decide)).1,
   (mean_arithmetic_average [1, 2, 6] [6, 2, 1] (by simp) (by decide)).2⟩

/-- C5: with zero ingests `Std::eval` returns the NaN marker; for every
non-empty ingestion sequence of length `n` it returns the square root of the
mean of squared deviations from the mean of all `n` retained values, with
divisor `n` (population standard deviation). -/
theorem std_two_pass_population :
    Std.eval [] = RVal.nan ∧
    ∀ l : List ℚ, l ≠ [] →
      Std.eval (Std.run l) =
        RVal.fin (Real.sqrt
          ((l.map (fun v : ℚ =>
              ((v : ℝ) - (l.sum : ℝ) / (l.length : ℝ)) ^ 2)).sum /
            (l.length : ℝ))) := by
  refine ⟨rfl, ?_⟩
  intro l h
  rw [stdRun_eq, Std.eval_disp l h, dispQ_cast]

/-- Witness for C5 at the concrete input `[1, 2, 3]`. -/
theorem std_two_pass_population_w :
    (([1, 2, 3] : List ℚ) ≠ []) ∧
    Std.eval (Std.run ([1, 2, 3] : List ℚ)) =
      RVal.fin (Real.sqrt
        ((([1, 2, 3] : List ℚ).map (fun v : ℚ =>
            ((v : ℝ) - (([1, 2, 3] : List ℚ).sum : ℝ) /
              ((([1, 2, 3] : List ℚ).length : ℕ) : ℝ)) ^ 2)).sum /
          ((([1, 2, 3] : List ℚ).length : ℕ) : ℝ))) :=
  ⟨by simp, std_two_pass_population.2 [1, 2, 3] (by simp)⟩

/-- C9: `Std::eval` is invariant under every permutation of the ingestion
sequence, its value on a non-empty sequence is a finite number that is
nonnegative, and on a constant sequence of any positive length it is
exactly 0. -/
theorem std_perm_nonneg_zero_const :
    (∀ l l' : List ℚ, l.Perm l' →
      Std.eval (Std.run l) = Std.eval (Std.run l')) ∧
    (∀ l : List ℚ, l ≠ [] →
      ∃ r : ℝ, Std.eval (Std.run l) = RVal.fin r ∧ 0 ≤ r) ∧
    (∀ (c : ℚ) (n : ℕ), 1 ≤ n →
      Std.eval (Std.run (List.replicate n c)) = RVal.fin 0) := by
  refine ⟨?_, ?_, ?_⟩
  · intro l l' hp
    rw [stdRun_eq, stdRun_eq]
    exact stdEval_perm hp
  · intro l h
    rw [stdRun_eq, Std.eval_disp l h]
    exact ⟨_, rfl, Real.sqrt_nonneg _⟩
  · intro c n hn
    have hne : List.replicate n c ≠ [] := by
      intro e
      have hlen := congrArg List.length e
      simp at hlen
      omega
    rw [stdRun_eq, Std.eval_disp _ hne, dispQ_replicate c n hn]
    simp

/-- Witness for C9 at the concrete inputs `[1, 2]`, its reordering `[2, 1]`,
and the constant sequence `replicate 3 5`. -/
theorem std_perm_nonneg_zero_const_w :
    (([1, 2] : List ℚ).Perm [2, 1] ∧
      Std.eval (Std.run ([1, 2] : List ℚ)) =
        Std.eval (Std.run ([2, 1] : List ℚ))) ∧
    ((([1, 2] : List ℚ) ≠ []) ∧
      ∃ r : ℝ, Std.eval (Std.run ([1, 2] : List ℚ)) = RVal.fin r ∧ 0 ≤ r) ∧
    ((1 : ℕ) ≤ 3 ∧ Std.eval (Std.run (List.replicate 3 (5 : ℚ))) = RVal.fin 0) :=
  ⟨⟨by decide, std_perm_nonneg_zero_const.1 [1, 2] [2, 1] (by decide)⟩,
   ⟨by simp, std_perm_nonneg_zero_const.2.1 [1, 2] (by simp)⟩,
   ⟨by norm_num, std_perm_nonneg_zero_const.2.2 5 3 (by norm_num)⟩⟩

/-- C8: for every non-empty sequence of ingested (finite, representable)
values, `Min::eval` is a value of the sequence that is ≤ every ingested
value, and `Max::eval` is a value of the sequence that is ≥ every ingested
value. -/
theorem min_max_bound_attained (l : List ℚ) (h : l ≠ [])
    (hv : ∀ x ∈ l, -DBL_MAX ≤ x ∧ x ≤ DBL_MAX) :
    ∃ a b : ℚ,
      Min.eval (Min.run (l.map Dbl.fin)) = Dbl.fin a ∧
      Max.eval (Max.run (l.map Dbl.fin)) = Dbl.fin b ∧
      a ∈ l ∧ b ∈ l ∧ ∀ x ∈ l, a ≤ x ∧ x ≤ b := by
  obtain ⟨x0, hx0⟩ := List.exists_mem_of_ne_nil l h
  have hminrun : Min.run (l.map Dbl.fin) = ⟨.fin (l.foldl minStep DBL_MAX)⟩ :=
    min_foldl_fin l DBL_MAX
  obtain ⟨hm1, hm2, hm3⟩ := minStep_foldl_spec l DBL_MAX
  have hmem_min : l.foldl minStep DBL_MAX ∈ l := by
    rcases hm3 with he | hmem
    · have hx0le : x0 ≤ DBL_MAX := (hv x0 hx0).2
      have hfle : l.foldl minStep DBL_MAX ≤ x0 := hm2 x0 hx0
      have hx0eq : x0 = l.foldl minStep DBL_MAX :=
        le_antisymm (by rw [he]; exact hx0le) hfle
      rw [← hx0eq]
      exact hx0
    · exact hmem
  have hmaxrun : Max.run (l.map Dbl.fin) = ⟨.fin (l.foldl maxStep (-DBL_MAX))⟩ :=
    max_foldl_fin l (-DBL_MAX)
  obtain ⟨hM1, hM2, hM3⟩ := maxStep_foldl_spec l (-DBL_MAX)
  have hmem_max : l.foldl maxStep (-DBL_MAX) ∈ l := by
    rcases hM3 with he | hmem
    · have hx0ge : -DBL_MAX ≤ x0 := (hv x0 hx0).1
      have hfge : x0 ≤ l.foldl maxStep (-DBL_MAX) := hM2 x0 hx0
      have hx0eq : x0 = l.foldl maxStep (-DBL_MAX) :=
        le_antisymm hfge (by rw [he]; exact hx0ge)
      rw [← hx0eq]
      exact hx0
    · exact hmem
  refine ⟨l.foldl minStep DBL_MAX, l.foldl maxStep (-DBL_MAX), ?_, ?_,
    hmem_min, hmem_max, ?_⟩
  · rw [hminrun]
    rfl
  · rw [hmaxrun]
    rfl
  · intro x hx
    exact ⟨hm2 x hx, hM2 x hx⟩

/-- Witness for C8 at the concrete input `[2, 1, 3]`. -/
theorem min_max_bound_attained_w :
    ((([2, 1, 3] : List ℚ) ≠ []) ∧
      (∀ x ∈ ([2, 1, 3] : List ℚ), -DBL_MAX ≤ x ∧ x ≤ DBL_MAX)) ∧
    ∃ a b : ℚ,
      Min.eval (Min.run (([2, 1, 3] : List ℚ).map Dbl.fin)) = Dbl.fin a ∧
      Max.eval (Max.run (([2, 1, 3] : List ℚ).map Dbl.fin)) = Dbl.fin b ∧
      a ∈ ([2, 1, 3] : List ℚ) ∧ b ∈ ([2, 1, 3] : List ℚ) ∧
      ∀ x ∈ ([2, 1, 3] : List ℚ), a ≤ x ∧ x ≤ b := by
  have hv : ∀ x ∈ ([2, 1, 3] : List ℚ), -DBL_MAX ≤ x ∧ x ≤ DBL_MAX := by
    intro x hx
    fin_cases hx <;> constructor <;> norm_num [DBL_MAX]
  exact ⟨⟨by simp, hv⟩, min_max_bound_attained [2, 1, 3] (by simp) hv⟩

/-- C4 (counterexample): on the token stream `1 2 3e` — two valid tokens and
a malformed trailing token whose characters run to end-of-input — extraction
of the last token sets `eofbit` together with `failbit`, so `main`'s test
`!cin.eof() && !cin.good()` is false: the program prints all six statistic
lines and exits 0, contradicting the claim that any malformed token yields
exit status 1 with no statistic line. -/
theorem main_trailing_eof_malformed_cex :
    (runMain [Tok.val 1, Tok.val 2, Tok.badEof]).exitCode = 0 ∧
    (runMain [Tok.val 1, Tok.val 2, Tok.badEof]).outLines.map Prod.fst =
      ["min", "max", "mean", "std", "pct90", "pct95"] ∧
    (runMain [Tok.val 1, Tok.val 2, Tok.badEof]).errLines = [] := by
  refine ⟨rfl, ?_, rfl⟩
  rfl

/-- C4 (amended): if a token of the input stream is malformed and its
characters do not extend to end-of-input (`failbit` without `eofbit`),
`main` writes the single diagnostic line `"Invalid input data"` to stderr,
prints no statistic line, and exits with status 1.  If every token parses
(including the zero-token stream), or the only failing token is a malformed
trailing token whose characters extend to end-of-input (`failbit` with
`eofbit`), `main` prints exactly one statistic line per accumulator in
construction order `min, max, mean, std, pct90, pct95`, writes nothing to
stderr, and exits with status 0. -/
theorem main_driver_behavior (tokens : List Tok) :
    ((∃ pre rest, tokens = pre ++ Tok.bad :: rest ∧
        ∀ t ∈ pre, ∃ v, t = Tok.val v) →
      (runMain tokens).outLines = [] ∧
      (runMain tokens).errLines = ["Invalid input data"] ∧
      (runMain tokens).exitCode = 1) ∧
    ((∀ t ∈ tokens, ∃ v, t = Tok.val v) →
      (runMain tokens).outLines.map Prod.fst =
        ["min", "max", "mean", "std", "pct90", "pct95"] ∧
      (runMain tokens).errLines = [] ∧
      (runMain tokens).exitCode = 0) ∧
    ((∃ pre rest, tokens = pre ++ Tok.badEof :: rest ∧
        ∀ t ∈ pre, ∃ v, t = Tok.val v) →
      (runMain tokens).outLines.map Prod.fst =
        ["min", "max", "mean", "std", "pct90", "pct95"] ∧
      (runMain tokens).errLines = [] ∧
      (runMain tokens).exitCode = 0) := by
  refine ⟨?_, ?_, ?_⟩
  · rintro ⟨pre, rest, rfl, hpre⟩
    have hflag : (readLoop (pre ++ Tok.bad :: rest)).2 = true := by
      rw [readLoop_flag_append pre hpre (Tok.bad :: rest)]
      rfl
    simp [runMain, hflag]
  · intro hall
    have hflag : (readLoop tokens).2 = false := by
      have h := readLoop_flag_append tokens hall []
      simpa using h
    simp [runMain, hflag, mainStats]
  · rintro ⟨pre, rest, rfl, hpre⟩
    have hflag : (readLoop (pre ++ Tok.badEof :: rest)).2 = false := by
      rw [readLoop_flag_append pre hpre (Tok.badEof :: rest)]
      rfl
    simp [runMain, hflag, mainStats]

/-- Witness for the amended C4 at the concrete token streams
`[val 1, bad]` (malformed mid-stream token), `[val 1]` (clean), and
`[val 1, badEof]` (malformed trailing token reaching end-of-input). -/
theorem main_driver_behavior_w :
    ((runMain [Tok.val 1, Tok.bad]).outLines = [] ∧
     (runMain [Tok.val 1, Tok.bad]).errLines = ["Invalid input data"] ∧
     (runMain [Tok.val 1, Tok.bad]).exitCode = 1) ∧
    ((runMain [Tok.val 1]).outLines.map Prod.fst =
        ["min", "max", "mean", "std", "pct90", "pct95"] ∧
     (runMain [Tok.val 1]).errLines = [] ∧
     (runMain [Tok.val 1]).exitCode = 0) ∧
    ((runMain [Tok.val 1, Tok.badEof]).outLines.map Prod.fst =
        ["min", "max", "mean", "std", "pct90", "pct95"] ∧
     (runMain [Tok.val 1, Tok.badEof]).errLines = [] ∧
     (runMain [Tok.val 1, Tok.badEof]).exitCode = 0) := by
  have hpre : ∀ t ∈ [Tok.val 1], ∃ v, t = Tok.val v := by
    intro t ht
    rw [List.mem_singleton] at ht
    exact ⟨1, ht⟩
  exact ⟨(main_driver_behavior [Tok.val 1, Tok.bad]).1 ⟨[Tok.val 1], [], rfl, hpre⟩,
    (main_driver_behavior [Tok.val 1]).2.1 hpre,
    (main_driver_behavior [Tok.val 1, Tok.badEof]).2.2 ⟨[Tok.val 1], [], rfl, hpre⟩⟩

end Stats
